import Mathlib

/-!
Verification of the paint layer-store system (grid painting application).

The development shallowly embeds the four source modules:
`layer_store.py` (the three LayerStore policies), `undo.py` (UndoTracker),
and the parts of `grid.py` / `replay.py` the claims need.  The bounded
collection primitives (ArrayStack, CircularQueue, BSet, ArraySortedList),
the layer catalogue (`layers` / `layer_util`) and the PaintAction type are
external collaborators not shipped with the sources; they are modelled
from the specification and marked as such in their doc comments.
-/

namespace Paint

/-- A colour is an opaque 3-component value (RGB triple of integers). -/
abbrev Color := Nat × Nat × Nat

/-- Modelled from the spec: a Layer from the missing `layers` catalogue is a
named, indexed entry; two Layer values are equal iff they are the same
catalogue entry.  Its pure colour transform is supplied separately as an
`ApplyFn` environment since the catalogue module is not in the sources. -/
structure Layer where
  index : Nat
  name : String
  deriving DecidableEq, Repr

/-- Modelled from the spec: the pure transform `apply(colour, timestamp, x, y)`
of each layer, keyed by the layer value. -/
abbrev ApplyFn := Layer → Color → Nat → Nat → Nat → Color

/-!
## SetLayerStore (src/layer_store.py lines 48-157)

Fields `color`, `layer`, `inverted`; `color` starts as `(None, None, None)`
and `layer` as `None`, both modelled with `Option`.
-/

structure SetLayerStore where
  color : Option Color
  layer : Option Layer
  inverted : Bool
  deriving DecidableEq, Repr

/-- `SetLayerStore.__init__`: color (None, None, None), layer None, not inverted. -/
def SetLayerStore.init : SetLayerStore := ⟨none, none, false⟩

/-- `SetLayerStore.add`: if the passed layer differs from the held one, hold it
and return True, else return False. -/
def SetLayerStore.add (s : SetLayerStore) (layer : Layer) : SetLayerStore × Bool :=
  if some layer ≠ s.layer then (⟨s.color, some layer, s.inverted⟩, true)
  else (s, false)

/-- `SetLayerStore.get_color`: compute the colour (applying the held layer if
any, then the invert transform if `inverted`), store it in the `color` field
and return it.  `inv` is the invert transform from the missing `layers`
module, passed as a parameter. -/
def SetLayerStore.get_color (f : ApplyFn) (inv : Color → Nat → Nat → Nat → Color)
    (s : SetLayerStore) (start : Color) (timestamp x y : Nat) : SetLayerStore × Color :=
  let c : Color :=
    if s.inverted then
      match s.layer with
      | some l => inv (f l start timestamp x y) timestamp x y
      | none => inv start timestamp x y
    else
      match s.layer with
      | some l => f l start timestamp x y
      | none => start
  (⟨some c, s.layer, s.inverted⟩, c)

/-- `SetLayerStore.erase`: tests whether the ARGUMENT is not None (not whether
a layer is held); if so, clears the held layer and returns True.  The argument
is modelled as `Option Layer` to mirror the `layer != None` test. -/
def SetLayerStore.erase (s : SetLayerStore) (layer : Option Layer) : SetLayerStore × Bool :=
  if layer ≠ none then (⟨s.color, none, s.inverted⟩, true)
  else (s, false)

/-- `SetLayerStore.special`: toggle the `inverted` flag. -/
def SetLayerStore.special (s : SetLayerStore) : SetLayerStore :=
  if ¬ s.inverted then ⟨s.color, s.layer, true⟩ else ⟨s.color, s.layer, false⟩

/-- Modelled from the spec: the fixed invert transform of the missing `layers`
module (inverts each colour component against 255); used only to instantiate
theorems at concrete inputs. -/
def invertApply (c : Color) (_timestamp _x _y : Nat) : Color :=
  (255 - c.1, 255 - c.2.1, 255 - c.2.2)

/-- Modelled from the spec: a concrete catalogue transform environment used
only to instantiate theorems at concrete inputs. -/
def demoApply : ApplyFn :=
  fun l c t x y => (l.index + c.1, c.2.1 + x, c.2.2 + y + t)

/-- A concrete layer used as an erase argument in concrete evaluations. -/
def blackLayer : Layer := ⟨0, "black"⟩

/-- C1: the claim states that for the Set store, erase on a store holding no
layer returns false and changes nothing.  The code instead tests the
argument against None and returns True: on the empty store, erase with any
actual layer returns true.  This contradicts the method docstring (Returns
true if the LayerStore was actually changed), so the code is wrong. -/
theorem set_erase_empty_returns_true :
    SetLayerStore.init.erase (some blackLayer) = (SetLayerStore.init, true) := by
  decide

/-- C2 counterexample: the claim states get_color leaves every field of the
store unchanged, but the code writes the computed colour into the `color`
field: on the fresh store it changes `color` from none to some value. -/
theorem set_get_color_mutates_color_field :
    (SetLayerStore.init.get_color demoApply invertApply (1, 2, 3) 0 0 0).1 ≠
      SetLayerStore.init := by
  decide

/-- C2 (amended): get_color leaves the `layer` and `inverted` fields unchanged
and only updates the `color` cache field to the returned colour; it is
deterministic: an immediately repeated call with the same arguments returns
the same colour and leaves the state fixed. -/
theorem set_get_color_pure_except_cache (f : ApplyFn)
    (inv : Color → Nat → Nat → Nat → Color) (s : SetLayerStore)
    (start : Color) (timestamp x y : Nat) :
    (s.get_color f inv start timestamp x y).1.layer = s.layer ∧
    (s.get_color f inv start timestamp x y).1.inverted = s.inverted ∧
    (s.get_color f inv start timestamp x y).1.color =
      some (s.get_color f inv start timestamp x y).2 ∧
    ((s.get_color f inv start timestamp x y).1.get_color f inv start timestamp x y).2 =
      (s.get_color f inv start timestamp x y).2 ∧
    ((s.get_color f inv start timestamp x y).1.get_color f inv start timestamp x y).1 =
      (s.get_color f inv start timestamp x y).1 := by
  simp [SetLayerStore.get_color]

/-- C9: special toggles the `inverted` flag, calling it twice restores the
exact store state, hence all get_color outputs are identical to before
either call. -/
theorem set_special_period_two (f : ApplyFn)
    (inv : Color → Nat → Nat → Nat → Color) (s : SetLayerStore)
    (start : Color) (timestamp x y : Nat) :
    s.special.inverted = !s.inverted ∧
    s.special.special = s ∧
    (s.special.special.get_color f inv start timestamp x y).2 =
      (s.get_color f inv start timestamp x y).2 := by
  have h2 : s.special.special = s := by
    cases s with
    | mk c l i => cases i <;> rfl
  refine ⟨?_, h2, by rw [h2]⟩
  cases s with
  | mk c l i => cases i <;> rfl

/-!
## AdditiveLayerStore (src/layer_store.py lines 160-276)

The CircularQueue (FIFO, head at list head) and ArrayStack (LIFO, top at
list head) are modelled from the spec as lists; their fixed capacities are
`len(get_layers()) * 100`, modelled as a parameter `cap` where overflow can
occur.
-/

structure AdditiveLayerStore where
  layer_queue : List Layer
  layer_stack : List Layer
  deriving DecidableEq, Repr

/-- `AdditiveLayerStore.__init__`: both containers start empty. -/
def AdditiveLayerStore.init : AdditiveLayerStore := ⟨[], []⟩

/-- `AdditiveLayerStore.add`: append to the queue tail (raises, modelled as
`none`, when the queue is at capacity `cap`), then return whether the length
grew by one (always true on success). -/
def AdditiveLayerStore.add (cap : Nat) (s : AdditiveLayerStore) (layer : Layer) :
    Option (AdditiveLayerStore × Bool) :=
  let added_queue_length := s.layer_queue.length + 1
  if s.layer_queue.length < cap then
    some (⟨s.layer_queue ++ [layer], s.layer_stack⟩,
      decide ((s.layer_queue ++ [layer]).length = added_queue_length))
  else none

/-- `AdditiveLayerStore.erase`: serve one element from the queue head (raises,
modelled as `none`, when empty), ignoring the layer argument, then return
whether the length shrank by one (always true on success). -/
def AdditiveLayerStore.erase (s : AdditiveLayerStore) (_layer : Layer) :
    Option (AdditiveLayerStore × Bool) :=
  let erased_queue_length := s.layer_queue.length - 1
  match s.layer_queue with
  | [] => none
  | _ :: rest => some (⟨rest, s.layer_stack⟩, decide (rest.length = erased_queue_length))

/-- One loop body of `AdditiveLayerStore.get_color`, iterated `n` times:
serve the queue head (`none` on empty), apply it to the running colour, and
append it back to the queue tail. -/
def rotateApply (f : ApplyFn) (timestamp x y : Nat) :
    Nat → List Layer → Color → Option (List Layer × Color)
  | 0, q, c => some (q, c)
  | n + 1, q, c =>
    match q with
    | [] => none
    | l :: rest => rotateApply f timestamp x y n (rest ++ [l]) (f l c timestamp x y)

/-- `AdditiveLayerStore.get_color`: return `start` when the queue is empty;
otherwise rotate the whole queue once, applying each served layer in turn.
The re-appends cannot overflow because each one follows a serve, so the
queue length never exceeds its starting value. -/
def AdditiveLayerStore.get_color (f : ApplyFn) (s : AdditiveLayerStore)
    (start : Color) (timestamp x y : Nat) : Option (AdditiveLayerStore × Color) :=
  if s.layer_queue.isEmpty then some (s, start)
  else
    match rotateApply f timestamp x y s.layer_queue.length s.layer_queue start with
    | none => none
    | some (q, c) => some (⟨q, s.layer_stack⟩, c)

/-- First loop of `AdditiveLayerStore.special`: serve every queue element and
push it on the stack. -/
def drainToStack : List Layer → List Layer → List Layer
  | [], st => st
  | l :: rest, st => drainToStack rest (l :: st)

/-- Second loop of `AdditiveLayerStore.special`: pop every stack element and
append it to the queue tail. -/
def drainToQueue : List Layer → List Layer → List Layer
  | [], q => q
  | l :: rest, q => drainToQueue rest (q ++ [l])

/-- `AdditiveLayerStore.special`: drain the queue into the stack, then drain
the whole stack back into the (now empty) queue.  Serve and pop counts match
the container lengths exactly, and the stack capacity equals the queue
capacity, so no underflow or overflow can occur here. -/
def AdditiveLayerStore.special (s : AdditiveLayerStore) : AdditiveLayerStore :=
  ⟨drainToQueue (drainToStack s.layer_queue s.layer_stack) [], []⟩

theorem drainToStack_eq : ∀ (q st : List Layer), drainToStack q st = q.reverse ++ st := by
  intro q
  induction q with
  | nil => intro st; simp [drainToStack]
  | cons l rest ih => intro st; simp [drainToStack, ih]

theorem drainToQueue_eq : ∀ (st q : List Layer), drainToQueue st q = q ++ st := by
  intro st
  induction st with
  | nil => intro q; simp [drainToQueue]
  | cons l rest ih => intro q; simp [drainToQueue, ih]

theorem additive_special_eq (s : AdditiveLayerStore) :
    s.special = ⟨s.layer_queue.reverse ++ s.layer_stack, []⟩ := by
  simp [AdditiveLayerStore.special, drainToStack_eq, drainToQueue_eq]

/-- Rotating through the first `n` elements of the queue moves them to the
tail and left-folds the transform over them. -/
theorem rotateApply_eq (f : ApplyFn) (timestamp x y : Nat) :
    ∀ (n : Nat) (q : List Layer) (c : Color), n ≤ q.length →
      rotateApply f timestamp x y n q c =
        some (q.drop n ++ q.take n,
          (q.take n).foldl (fun c2 l => f l c2 timestamp x y) c) := by
  intro n
  induction n with
  | zero => intro q c _; simp [rotateApply]
  | succ n ih =>
    intro q c hn
    match q with
    | [] => simp at hn
    | l :: rest =>
      have hr : n ≤ rest.length := Nat.le_of_succ_le_succ hn
      have hr2 : n ≤ (rest ++ [l]).length := by
        simp only [List.length_append, List.length_cons, List.length_nil]
        omega
      rw [rotateApply, ih (rest ++ [l]) (f l c timestamp x y) hr2]
      rw [List.take_append_of_le_length hr, List.drop_append_of_le_length hr]
      simp

/-- A full rotation restores the queue and computes the left fold. -/
theorem additive_get_color_eq (f : ApplyFn) (s : AdditiveLayerStore)
    (start : Color) (timestamp x y : Nat) :
    s.get_color f start timestamp x y =
      some (s, s.layer_queue.foldl (fun c l => f l c timestamp x y) start) := by
  unfold AdditiveLayerStore.get_color
  match hq : s.layer_queue with
  | [] => simp
  | l :: rest =>
    rw [rotateApply_eq f timestamp x y (l :: rest).length (l :: rest) start (le_refl _)]
    simp only [List.drop_length, List.take_length, List.nil_append, List.isEmpty_cons,
      Bool.false_eq_true, if_false]
    have : (⟨l :: rest, s.layer_stack⟩ : AdditiveLayerStore) = s := by
      rw [← hq]
    rw [this]

/-- C4: get_color applies the held layers to `start` as a left fold in
head-to-tail order, leaves the store (in particular the queue order)
unchanged, and an immediately repeated call returns the identical result. -/
theorem additive_get_color_foldl (f : ApplyFn) (s : AdditiveLayerStore)
    (start : Color) (timestamp x y : Nat) :
    s.get_color f start timestamp x y =
      some (s, s.layer_queue.foldl (fun c l => f l c timestamp x y) start) ∧
    (s.get_color f start timestamp x y).bind
        (fun r => r.1.get_color f start timestamp x y) =
      some (s, s.layer_queue.foldl (fun c l => f l c timestamp x y) start) := by
  refine ⟨additive_get_color_eq f s start timestamp x y, ?_⟩
  rw [additive_get_color_eq f s start timestamp x y]
  simp [additive_get_color_eq f s start timestamp x y]

/-- C5: special reverses the head-to-tail order of the held layers, and on any
state reachable by add and erase calls (whose scratch stack is empty) it is
an involution, so two calls restore every get_color output. -/
theorem additive_special_involutive (f : ApplyFn) (s : AdditiveLayerStore)
    (start : Color) (timestamp x y : Nat) (h : s.layer_stack = []) :
    s.special.layer_queue = s.layer_queue.reverse ∧
    s.special.special = s ∧
    s.special.special.get_color f start timestamp x y =
      s.get_color f start timestamp x y := by
  have h1 : s.special.layer_queue = s.layer_queue.reverse := by
    simp [additive_special_eq, h]
  have h2 : s.special.special = s := by
    cases s with
    | mk q st =>
      simp only at h
      subst h
      simp [additive_special_eq]
  exact ⟨h1, h2, by rw [h2]⟩

/-- Witness for C5 at a concrete two-layer store. -/
theorem additive_special_involutive_witness :
    (⟨[⟨0, "black"⟩, ⟨4, "red"⟩], []⟩ : AdditiveLayerStore).layer_stack = [] ∧
    (⟨[⟨0, "black"⟩, ⟨4, "red"⟩], []⟩ : AdditiveLayerStore).special.layer_queue =
      [⟨4, "red"⟩, ⟨0, "black"⟩] :=
  ⟨rfl, (additive_special_involutive demoApply ⟨[⟨0, "black"⟩, ⟨4, "red"⟩], []⟩
    (0, 0, 0) 0 0 0 rfl).1⟩

/-- C6: erase ignores the layer argument, fails (underflow) exactly on the
empty queue, otherwise removes exactly the head element and returns true;
after erasing from a queue `a :: q`, get_color composes only `q` in order. -/
theorem additive_erase_head (s : AdditiveLayerStore) (l1 l2 : Layer) (f : ApplyFn)
    (start : Color) (timestamp x y : Nat) :
    s.erase l1 = s.erase l2 ∧
    (s.layer_queue = [] → s.erase l1 = none) ∧
    (∀ a q, s.layer_queue = a :: q →
      s.erase l1 = some (⟨q, s.layer_stack⟩, true) ∧
      (AdditiveLayerStore.mk q s.layer_stack).get_color f start timestamp x y =
        some (⟨q, s.layer_stack⟩, q.foldl (fun c l => f l c timestamp x y) start)) := by
  refine ⟨rfl, ?_, ?_⟩
  · intro hq
    simp [AdditiveLayerStore.erase, hq]
  · intro a q hq
    constructor
    · simp [AdditiveLayerStore.erase, hq]
    · exact additive_get_color_eq f ⟨q, s.layer_stack⟩ start timestamp x y

/-- Witness for C6: after adding layers L1, L2, L3, one erase leaves [L2, L3]
and get_color composes exactly those two in order. -/
theorem additive_erase_head_witness :
    (⟨[⟨0, "black"⟩, ⟨4, "red"⟩, ⟨5, "green"⟩], []⟩ : AdditiveLayerStore).erase
        ⟨7, "blue"⟩ =
      some (⟨[⟨4, "red"⟩, ⟨5, "green"⟩], []⟩, true) ∧
    (AdditiveLayerStore.mk [⟨4, "red"⟩, ⟨5, "green"⟩] []).get_color demoApply
        (1, 1, 1) 0 0 0 =
      some (⟨[⟨4, "red"⟩, ⟨5, "green"⟩], []⟩,
        [(⟨4, "red"⟩ : Layer), ⟨5, "green"⟩].foldl
          (fun c l => demoApply l c 0 0 0) (1, 1, 1)) :=
  (additive_erase_head ⟨[⟨0, "black"⟩, ⟨4, "red"⟩, ⟨5, "green"⟩], []⟩
    ⟨7, "blue"⟩ ⟨7, "blue"⟩ demoApply (1, 1, 1) 0 0 0).2.2
    ⟨0, "black"⟩ [⟨4, "red"⟩, ⟨5, "green"⟩] rfl

/-!
## SequenceLayerStore (src/layer_store.py lines 279-406)

The membership set is a `BSet(9)` of the catalogue indices shifted by one;
modelled from the spec as a `Finset Nat` of positive integers bounded by the
fixed universe size.  The catalogue `get_layers()` is an array whose entries
may be None, modelled as a `List (Option Layer)` parameter.
-/

/-- The universe size of the `BSet(9)` backing the membership set. -/
def bsetUniverse : Nat := 9

/-- Modelled from the spec: BSet add fails (raises) on an element outside the
fixed universe of small positive integers, otherwise inserts it. -/
def bsetAdd (s : Finset Nat) (x : Nat) : Option (Finset Nat) :=
  if 1 ≤ x ∧ x ≤ bsetUniverse then some (insert x s) else none

structure SequenceLayerStore where
  layer_set : Finset Nat
  is_specialized : Bool
  deriving DecidableEq

/-- `SequenceLayerStore.__init__`: empty membership set. -/
def SequenceLayerStore.init : SequenceLayerStore := ⟨∅, false⟩

/-- `SequenceLayerStore.add`: return false if the shifted index is already a
member, otherwise insert it into the BSet and return true. -/
def SequenceLayerStore.add (s : SequenceLayerStore) (layer : Layer) :
    Option (SequenceLayerStore × Bool) :=
  let layer_index := layer.index + 1
  if layer_index ∈ s.layer_set then some (s, false)
  else
    match bsetAdd s.layer_set layer_index with
    | none => none
    | some t => some (⟨t, s.is_specialized⟩, true)

/-- `SequenceLayerStore.erase`: return false if the shifted index is not a
member, otherwise remove it and return true.  The BSet remove cannot raise
here: the element is positive and membership was just checked. -/
def SequenceLayerStore.erase (s : SequenceLayerStore) (layer : Layer) :
    Option (SequenceLayerStore × Bool) :=
  let layer_index := layer.index + 1
  if layer_index ∉ s.layer_set then some (s, false)
  else some (⟨s.layer_set.erase layer_index, s.is_specialized⟩, true)

/-- `SequenceLayerStore.get_color`: fold over the whole catalogue in order,
applying each non-None entry whose shifted index is a member. -/
def SequenceLayerStore.get_color (f : ApplyFn) (layer_list : List (Option Layer))
    (s : SequenceLayerStore) (start : Color) (timestamp x y : Nat) : Color :=
  layer_list.foldl
    (fun color entry =>
      match entry with
      | some each_layer =>
        if each_layer.index + 1 ∈ s.layer_set then f each_layer color timestamp x y
        else color
      | none => color)
    start

/-- The current member layers, in catalogue order: the non-None catalogue
entries whose shifted index is in the membership set. -/
def seqMembers (layer_list : List (Option Layer)) (s : SequenceLayerStore) : List Layer :=
  (layer_list.filterMap id).filter (fun l => decide (l.index + 1 ∈ s.layer_set))

/-- Lexicographic comparison of character lists by code point, the ordering
Python uses on strings: the empty list is least, otherwise compare heads and
recurse on equal heads. -/
def charListLe : List Char → List Char → Bool
  | [], _ => true
  | _ :: _, [] => false
  | a :: as, b :: bs => if a < b then true else if b < a then false else charListLe as bs

theorem charListLe_total :
    ∀ x y : List Char, charListLe x y = false → charListLe y x = true := by
  intro x
  induction x with
  | nil => intro y h; simp [charListLe] at h
  | cons a as ih =>
    intro y h
    match y with
    | [] => rfl
    | b :: bs =>
      rw [charListLe] at h ⊢
      by_cases hab : a < b
      · simp [hab] at h
      · by_cases hba : b < a
        · simp [hba]
        · simp only [hab, hba, if_false] at h ⊢
          exact ih bs h

theorem charListLe_trans :
    ∀ x y z : List Char, charListLe x y = true → charListLe y z = true →
      charListLe x z = true := by
  intro x
  induction x with
  | nil => intro y z _ _; rfl
  | cons a as ih =>
    intro y z hxy hyz
    match y, z with
    | [], _ => simp [charListLe] at hxy
    | b :: bs, [] => simp [charListLe] at hyz
    | b :: bs, c :: cs =>
      rw [charListLe] at hxy hyz ⊢
      have hxy2 : a < b ∨ (a = b ∧ charListLe as bs = true) := by
        by_cases hab : a < b
        · exact Or.inl hab
        · by_cases hba : b < a
          · simp [hab, hba] at hxy
          · exact Or.inr ⟨le_antisymm (not_lt.mp hba) (not_lt.mp hab),
              by simpa [hab, hba] using hxy⟩
      have hyz2 : b < c ∨ (b = c ∧ charListLe bs cs = true) := by
        by_cases hbc : b < c
        · exact Or.inl hbc
        · by_cases hcb : c < b
          · simp [hbc, hcb] at hyz
          · exact Or.inr ⟨le_antisymm (not_lt.mp hcb) (not_lt.mp hbc),
              by simpa [hbc, hcb] using hyz⟩
      rcases hxy2 with hab | ⟨hab, hrest1⟩
      · rcases hyz2 with hbc | ⟨hbc, _⟩
        · simp [lt_trans hab hbc]
        · subst hbc; simp [hab]
      · subst hab
        rcases hyz2 with hbc | ⟨hbc, hrest2⟩
        · simp [hbc]
        · subst hbc
          simp [lt_irrefl, ih bs cs hrest1 hrest2]

/-- The layer ordering key used by the sorted list: names compared
lexicographically. -/
def nameLe (a b : Layer) : Bool := charListLe a.name.data b.name.data

/-- Modelled from the spec: inserting a ListItem keyed by the layer name into
the ArraySortedList, keeping the list ordered by name. -/
def insertByName (item : Layer) : List Layer → List Layer
  | [] => [item]
  | m :: rest =>
    if nameLe item m then item :: m :: rest else m :: insertByName item rest

/-- The first loop of `SequenceLayerStore.special`: add every member layer to
the sorted list, keyed by name. -/
def sortByName (ls : List Layer) : List Layer :=
  ls.foldl (fun acc l => insertByName l acc) []

/-- `SequenceLayerStore.special`: build the name-sorted list of member layers;
if it is empty do nothing, otherwise remove from the membership set the
element at position `count / 2 - 1` (even count) or `count / 2` (odd count).
The indexing cannot go out of bounds (the chosen index is below the length),
so `getD` with a dummy default is faithful. -/
def SequenceLayerStore.special (layer_list : List (Option Layer))
    (s : SequenceLayerStore) : SequenceLayerStore :=
  let layer_sortedList := sortByName (seqMembers layer_list s)
  if layer_sortedList.isEmpty then s
  else
    let chosen_index :=
      if layer_sortedList.length % 2 = 0 then layer_sortedList.length / 2 - 1
      else layer_sortedList.length / 2
    let removed := layer_sortedList.getD chosen_index ⟨0, ""⟩
    ⟨s.layer_set.erase (removed.index + 1), s.is_specialized⟩

theorem nameLe_total (a b : Layer) (h : nameLe a b = false) : nameLe b a = true :=
  charListLe_total a.name.data b.name.data h

theorem nameLe_trans (a b c : Layer) (h1 : nameLe a b = true)
    (h2 : nameLe b c = true) : nameLe a c = true :=
  charListLe_trans a.name.data b.name.data c.name.data h1 h2

theorem insertByName_perm (l : Layer) :
    ∀ xs : List Layer, (insertByName l xs).Perm (l :: xs) := by
  intro xs
  induction xs with
  | nil => simp [insertByName]
  | cons m rest ih =>
    rw [insertByName]
    by_cases h : nameLe l m
    · simp [h]
    · simp only [h, if_false]
      exact (ih.cons m).trans (List.Perm.swap l m rest)

theorem insertByName_sorted (l : Layer) :
    ∀ xs : List Layer, xs.Pairwise (fun a b => nameLe a b = true) →
      (insertByName l xs).Pairwise (fun a b => nameLe a b = true) := by
  intro xs
  induction xs with
  | nil => intro _; simp [insertByName]
  | cons m rest ih =>
    intro hs
    rw [List.pairwise_cons] at hs
    rw [insertByName]
    by_cases h : nameLe l m
    · simp only [h, if_true]
      refine List.pairwise_cons.mpr ⟨?_, List.pairwise_cons.mpr hs⟩
      intro b hb
      rcases List.mem_cons.mp hb with hb | hb
      · rw [hb]; exact h
      · exact nameLe_trans l m b h (hs.1 b hb)
    · simp only [h, if_false]
      refine List.pairwise_cons.mpr ⟨?_, ih hs.2⟩
      intro b hb
      have hb2 := (insertByName_perm l rest).mem_iff.mp hb
      rcases List.mem_cons.mp hb2 with hb2 | hb2
      · rw [hb2]; exact nameLe_total l m (by simpa using h)
      · exact hs.1 b hb2

theorem sortByName_perm_aux :
    ∀ (xs acc : List Layer),
      (xs.foldl (fun a l => insertByName l a) acc).Perm (xs ++ acc) := by
  intro xs
  induction xs with
  | nil => intro acc; simp
  | cons x rest ih =>
    intro acc
    simp only [List.foldl_cons, List.cons_append]
    refine (ih (insertByName x acc)).trans ?_
    refine (List.Perm.append_left rest (insertByName_perm x acc)).trans ?_
    exact List.perm_middle

/-- The sorted list built by special is a permutation of the member list. -/
theorem sortByName_perm (ls : List Layer) : (sortByName ls).Perm ls := by
  have h := sortByName_perm_aux ls []
  simpa [sortByName] using h

theorem sortByName_sorted_aux :
    ∀ (xs acc : List Layer), acc.Pairwise (fun a b => nameLe a b = true) →
      (xs.foldl (fun a l => insertByName l a) acc).Pairwise
        (fun a b => nameLe a b = true) := by
  intro xs
  induction xs with
  | nil => intro acc h; simpa using h
  | cons x rest ih =>
    intro acc h
    simp only [List.foldl_cons]
    exact ih (insertByName x acc) (insertByName_sorted x acc h)

/-- The sorted list built by special is ordered by name. -/
theorem sortByName_sorted (ls : List Layer) :
    (sortByName ls).Pairwise (fun a b => nameLe a b = true) :=
  sortByName_sorted_aux ls [] (by simp)

/-- A concrete catalogue with five named layers at indices 0..4, used to
instantiate the Sequence store claims. -/
def fruitCat : List (Option Layer) :=
  [some ⟨0, "apple"⟩, some ⟨1, "banana"⟩, some ⟨2, "cherry"⟩,
    some ⟨3, "date"⟩, some ⟨4, "egg"⟩]

/-- C3: special orders the member layers by name (a sorted permutation of the
membership), is a no-op on an empty membership, otherwise removes the member
at position count / 2 - 1 (even count) or count / 2 (odd count) of that
ordering; concretely, of the five fruits it removes cherry, and of the four
fruits apple, banana, date, egg it removes banana. -/
theorem sequence_special_median (layer_list : List (Option Layer))
    (s : SequenceLayerStore) :
    (sortByName (seqMembers layer_list s)).Perm (seqMembers layer_list s) ∧
    (sortByName (seqMembers layer_list s)).Pairwise (fun a b => nameLe a b = true) ∧
    (seqMembers layer_list s = [] → SequenceLayerStore.special layer_list s = s) ∧
    (seqMembers layer_list s ≠ [] →
      SequenceLayerStore.special layer_list s =
        ⟨s.layer_set.erase
            (((sortByName (seqMembers layer_list s)).getD
              (if (sortByName (seqMembers layer_list s)).length % 2 = 0 then
                (sortByName (seqMembers layer_list s)).length / 2 - 1
              else (sortByName (seqMembers layer_list s)).length / 2)
              ⟨0, ""⟩).index + 1),
          s.is_specialized⟩) ∧
    SequenceLayerStore.special fruitCat ⟨{1, 2, 3, 4, 5}, false⟩ =
      ⟨{1, 2, 4, 5}, false⟩ ∧
    SequenceLayerStore.special fruitCat ⟨{1, 2, 4, 5}, false⟩ =
      ⟨{1, 4, 5}, false⟩ := by
  have hperm := sortByName_perm (seqMembers layer_list s)
  refine ⟨hperm, sortByName_sorted (seqMembers layer_list s), ?_, ?_, by decide, by decide⟩
  · intro hnil
    have hs : sortByName (seqMembers layer_list s) = [] := by
      have hl : (sortByName (seqMembers layer_list s)).length = 0 := by
        rw [hperm.length_eq, hnil]
        rfl
      exact List.length_eq_zero.mp hl
    simp [SequenceLayerStore.special, hs]
  · intro hne
    have hs : sortByName (seqMembers layer_list s) ≠ [] := by
      intro hcon
      apply hne
      have hl := hperm.length_eq
      rw [hcon] at hl
      exact List.length_eq_zero.mp (by simpa using hl.symm)
    simp only [SequenceLayerStore.special, List.isEmpty_iff, hs, if_false]

/-- Witness for C3: on the full five-fruit membership, special removes the
shifted index 3 (cherry). -/
theorem sequence_special_median_witness :
    SequenceLayerStore.special fruitCat ⟨{1, 2, 3, 4, 5}, false⟩ =
      ⟨{1, 2, 4, 5}, false⟩ := by
  have h := (sequence_special_median fruitCat ⟨{1, 2, 3, 4, 5}, false⟩).2.2.2.1
    (by decide)
  rw [h]
  decide

/-- A single add or erase call on the Sequence store. -/
inductive SeqOp where
  | addOp : Layer → SeqOp
  | eraseOp : Layer → SeqOp

/-- Run a list of add and erase calls on the Sequence store, failing if any
call fails. -/
def runSeqOps : List SeqOp → SequenceLayerStore → Option SequenceLayerStore
  | [], s => some s
  | op :: rest, s =>
    match (match op with
           | SeqOp.addOp l => s.add l
           | SeqOp.eraseOp l => s.erase l) with
    | none => none
    | some (s2, _) => runSeqOps rest s2

/-- get_color reads only the membership set. -/
theorem sequence_get_color_congr (f : ApplyFn) (layer_list : List (Option Layer))
    (s1 s2 : SequenceLayerStore) (start : Color) (timestamp x y : Nat)
    (hset : s1.layer_set = s2.layer_set) :
    s1.get_color f layer_list start timestamp x y =
      s2.get_color f layer_list start timestamp x y := by
  simp only [SequenceLayerStore.get_color, hset]

/-- get_color is the left fold of the transform over the member layers in
catalogue order. -/
theorem sequence_get_color_members (f : ApplyFn) (layer_list : List (Option Layer))
    (s : SequenceLayerStore) (start : Color) (timestamp x y : Nat) :
    s.get_color f layer_list start timestamp x y =
      (seqMembers layer_list s).foldl (fun c l => f l c timestamp x y) start := by
  unfold SequenceLayerStore.get_color seqMembers
  induction layer_list generalizing start with
  | nil => rfl
  | cons entry rest ih =>
    cases entry with
    | none => simpa using ih start
    | some l =>
      by_cases h : l.index + 1 ∈ s.layer_set <;>
        simp [List.filter_cons, h, ih]

/-- C7: the Sequence store colour depends only on the membership set: any two
add and erase call sequences from a common state that reach the same
membership set give identical get_color output, the output is the fold over
the member layers in catalogue order, and (for a catalogue ascending in
index) those members are applied in ascending catalogue-index order. -/
theorem sequence_membership_determines_color (f : ApplyFn)
    (layer_list : List (Option Layer)) (ops1 ops2 : List SeqOp)
    (s0 s1 s2 : SequenceLayerStore) (start : Color) (timestamp x y : Nat)
    (h1 : runSeqOps ops1 s0 = some s1) (h2 : runSeqOps ops2 s0 = some s2)
    (hset : s1.layer_set = s2.layer_set)
    (hasc : (layer_list.filterMap id).Pairwise (fun a b => a.index < b.index)) :
    s1.get_color f layer_list start timestamp x y =
      s2.get_color f layer_list start timestamp x y ∧
    s1.get_color f layer_list start timestamp x y =
      (seqMembers layer_list s1).foldl (fun c l => f l c timestamp x y) start ∧
    (seqMembers layer_list s1).Pairwise (fun a b => a.index < b.index) := by
  refine ⟨sequence_get_color_congr f layer_list s1 s2 start timestamp x y hset,
    sequence_get_color_members f layer_list s1 start timestamp x y, ?_⟩
  exact List.Pairwise.sublist (List.filter_sublist _) hasc

/-- Witness for C7: adding date, banana, cherry in two different call orders
yields the same membership and the same colour. -/
theorem sequence_membership_determines_color_witness :
    (⟨insert 3 (insert 2 (insert 4 (∅ : Finset Nat))), false⟩ :
        SequenceLayerStore).get_color demoApply fruitCat (0, 0, 0) 0 0 0 =
      (⟨insert 4 (insert 3 (insert 2 (∅ : Finset Nat))), false⟩ :
        SequenceLayerStore).get_color demoApply fruitCat (0, 0, 0) 0 0 0 :=
  (sequence_membership_determines_color demoApply fruitCat
    [SeqOp.addOp ⟨3, "date"⟩, SeqOp.addOp ⟨1, "banana"⟩, SeqOp.addOp ⟨2, "cherry"⟩]
    [SeqOp.addOp ⟨1, "banana"⟩, SeqOp.addOp ⟨2, "cherry"⟩, SeqOp.addOp ⟨3, "date"⟩]
    SequenceLayerStore.init
    ⟨insert 3 (insert 2 (insert 4 (∅ : Finset Nat))), false⟩
    ⟨insert 4 (insert 3 (insert 2 (∅ : Finset Nat))), false⟩ (0, 0, 0) 0 0 0
    rfl rfl (by decide) (by decide)).1

/-- C8: for a layer whose shifted index fits the BSet universe, add returns
true exactly when the index was not yet a member (a second add is a no-op
returning false), and erase returns true exactly when it was a member,
returning false without error when absent. -/
theorem sequence_add_erase_iff (s : SequenceLayerStore) (layer : Layer)
    (h : layer.index + 1 ≤ bsetUniverse) :
    (layer.index + 1 ∈ s.layer_set →
      s.add layer = some (s, false) ∧
      s.erase layer =
        some (⟨s.layer_set.erase (layer.index + 1), s.is_specialized⟩, true)) ∧
    (layer.index + 1 ∉ s.layer_set →
      s.add layer =
        some (⟨insert (layer.index + 1) s.layer_set, s.is_specialized⟩, true) ∧
      s.erase layer = some (s, false)) := by
  constructor
  · intro hmem
    constructor
    · simp [SequenceLayerStore.add, hmem]
    · simp [SequenceLayerStore.erase, hmem]
  · intro hmem
    constructor
    · simp [SequenceLayerStore.add, hmem, bsetAdd, h]
    · simp [SequenceLayerStore.erase, hmem]

/-- Witness for C8: adding apple to the empty store inserts its shifted
index 1 and returns true. -/
theorem sequence_add_erase_iff_witness :
    SequenceLayerStore.init.add ⟨0, "apple"⟩ =
      some (⟨insert 1 (∅ : Finset Nat), false⟩, true) :=
  ((sequence_add_erase_iff SequenceLayerStore.init ⟨0, "apple"⟩ (by decide)).2
    (by decide)).1

/-!
## UndoTracker (src/undo.py)

The two ArrayStack(10000) containers are CLASS-level attributes of
UndoTracker: every instance reads and mutates the same two stacks.  The
embedding therefore separates the instance (which carries no per-instance
state, only an identity) from the single shared state holding both stacks;
the methods take the shared state explicitly and ignore the instance.
PaintAction is an external value type, modelled as a type parameter with its
`undo_apply` and `redo_apply` behaviour supplied as a function on an
abstract grid type.  Stacks are modelled as lists with the top at the head.
-/

/-- A tracker instance: no per-instance fields exist in the source (both
stacks are class attributes), so only an identity distinguishes instances. -/
structure UndoTracker where
  instanceId : Nat
  deriving DecidableEq

/-- The class-level state shared by all UndoTracker instances: the history
stack and the undo stack. -/
structure UndoSharedState (α : Type) where
  history_stack : List α
  undo_stack : List α
  deriving DecidableEq

/-- The fixed capacity of both ArrayStack(10000) class attributes. -/
def undoCapacity : Nat := 10000

/-- `UndoTracker.add_action`: the is_full check does nothing (`pass`); if the
undo stack is non-empty it is cleared first, after which the loop over
`range(len(self.undo_stack))` runs zero times (the stack was just cleared),
so no history entries are popped; then the action is pushed onto the shared
history stack (raising, modelled as `none`, if it is full).  The tracker
instance is ignored: the state is class-level. -/
def UndoTracker.add_action {α : Type} (_t : UndoTracker) (st : UndoSharedState α)
    (action : α) : Option (UndoSharedState α) :=
  let st1 := if st.undo_stack.isEmpty then st else ⟨st.history_stack, []⟩
  if st1.history_stack.length < undoCapacity then
    some ⟨action :: st1.history_stack, st1.undo_stack⟩
  else none

/-- `UndoTracker.undo`: if the shared history stack is empty do nothing and
return None; otherwise pop the top action, push it on the shared undo stack,
apply its undo_apply to the grid and return it. -/
def UndoTracker.undo {α γ : Type} (_t : UndoTracker) (undoApply : α → γ → γ)
    (st : UndoSharedState α) (grid : γ) : UndoSharedState α × γ × Option α :=
  match st.history_stack with
  | [] => (st, grid, none)
  | a :: rest => (⟨rest, a :: st.undo_stack⟩, undoApply a grid, some a)

/-- `UndoTracker.redo`: if the shared undo stack is empty do nothing and
return None; otherwise pop it, push the action back on the history stack,
apply its redo_apply to the grid and return it. -/
def UndoTracker.redo {α γ : Type} (_t : UndoTracker) (redoApply : α → γ → γ)
    (st : UndoSharedState α) (grid : γ) : UndoSharedState α × γ × Option α :=
  match st.undo_stack with
  | [] => (st, grid, none)
  | a :: rest => (⟨a :: st.history_stack, rest⟩, redoApply a grid, some a)

/-- C10: the history and undo stacks are shared class state: after any
instance t1 records an action (below capacity), a DIFFERENT instance t2
undoing pops and undoes that very action, so tracker instances have no
independent histories. -/
theorem undo_tracker_shared_history {α γ : Type} (t1 t2 : UndoTracker)
    (st : UndoSharedState α) (undoApply : α → γ → γ) (a : α) (g : γ)
    (hne : t1 ≠ t2) (hcap : st.history_stack.length < undoCapacity) :
    ∃ st2, t1.add_action st a = some st2 ∧
      t2.undo undoApply st2 g =
        (⟨st2.history_stack.tail, a :: st2.undo_stack⟩, undoApply a g, some a) := by
  by_cases h : st.undo_stack.isEmpty
  · refine ⟨⟨a :: st.history_stack, st.undo_stack⟩, ?_, rfl⟩
    simp [UndoTracker.add_action, h, hcap]
  · refine ⟨⟨a :: st.history_stack, []⟩, ?_, rfl⟩
    simp [UndoTracker.add_action, h, hcap]

/-- Witness for C10: instance 0 records the action 7, instance 1 undoes it. -/
theorem undo_tracker_shared_history_witness :
    ∃ st2, UndoTracker.add_action ⟨0⟩ (⟨[], []⟩ : UndoSharedState Nat) 7 = some st2 ∧
      UndoTracker.undo ⟨1⟩ (fun a g => a + g) st2 5 =
        (⟨st2.history_stack.tail, 7 :: st2.undo_stack⟩, 7 + 5, some 7) :=
  undo_tracker_shared_history ⟨0⟩ ⟨1⟩ ⟨[], []⟩ (fun a g => a + g) 7 5
    (by decide) (by decide)

end Paint
